import Mathlib

/-!
Shallow embedding of `x509_canonical_name.py`: the canonical (Java
`X500Principal.getName`-compatible) string representation of an X.509
distinguished name.  Python strings are modelled as `List Char` (sequences of
Unicode code points); the CPython Unicode primitives (`str.upper`,
`str.lower`, `unicodedata.normalize("NFKD", ...)`, `str.isprintable`) are
table-driven in CPython and are modelled here by the restriction of those
tables to the characters this development works with (ASCII plus the
characters exercised by the repository's doctests: ß, ẞ, İ, ı, U+0307,
U+3000, 猫); every character outside the restricted table maps to itself
(resp. counts as printable exactly when ASCII-printable).
-/

/-! ### Python string primitives -/

/-- Model of CPython `str.upper` at the character level (restricted table, see
the module docstring); `str.upper` may expand one character to several
(ß becomes SS). -/
def charUpper (c : Char) : List Char :=
  if 97 ≤ c.toNat ∧ c.toNat ≤ 122 then [Char.ofNat (c.toNat - 32)]
  else if c = 'ß' then ['S', 'S']
  else if c = 'ı' then ['I']
  else [c]

/-- Model of CPython `str.lower` at the character level (restricted table);
İ lowercases to `i` followed by combining dot above (U+0307), ẞ to ß. -/
def charLower (c : Char) : List Char :=
  if 65 ≤ c.toNat ∧ c.toNat ≤ 90 then [Char.ofNat (c.toNat + 32)]
  else if c = 'İ' then ['i', Char.ofNat 0x307]
  else if c = 'ẞ' then ['ß']
  else [c]

/-- Model of `unicodedata.normalize("NFKD", ...)` at the character level
(restricted table): İ decomposes canonically to `I` + U+0307, the ideographic
space U+3000 decomposes (compatibility) to an ASCII space. -/
def charNFKD (c : Char) : List Char :=
  if c = 'İ' then ['I', Char.ofNat 0x307]
  else if c = Char.ofNat 0x3000 then [' ']
  else [c]

/-- `s.upper()`. -/
def pyUpper (s : List Char) : List Char := s.flatMap charUpper

/-- `s.lower()`. -/
def pyLower (s : List Char) : List Char := s.flatMap charLower

/-- `unicodedata.normalize("NFKD", s)`. -/
def pyNFKD (s : List Char) : List Char := s.flatMap charNFKD

/-- State-passing core of `re.sub(r" +", " ", s)`: `prevSpace` records whether
the previous character was part of a space run already emitted as one space. -/
def reSubAux (prevSpace : Bool) : List Char → List Char
  | [] => []
  | c :: cs =>
    if c = ' ' then
      if prevSpace then reSubAux true cs else ' ' :: reSubAux true cs
    else c :: reSubAux false cs

/-- `re.sub(r" +", " ", s)`: each maximal run of ASCII spaces is replaced by
a single space. -/
def reSubSpaces (s : List Char) : List Char := reSubAux false s

/-- `s.strip(chars)` for a character predicate: drop matching characters from
both ends. -/
def pyStrip (p : Char → Bool) (s : List Char) : List Char :=
  ((s.dropWhile p).reverse.dropWhile p).reverse

/-- The source's `cws`: `"".join(chr(i) for i in range(32 + 1))`. -/
def cws : List Char := (List.range 33).map Char.ofNat

/-- Membership in `cws`, the predicate used by `.strip(cws)`. -/
def inCws (c : Char) : Bool := cws.contains c

/-- The double-quote character (used instead of a quoted character literal). -/
def dq : Char := Char.ofNat 34

/-- The single-quote character. -/
def squote : Char := Char.ofNat 39

/-- The source's `esc` translate table:
`{ord(c): f"\\{c}" for c in ",+<>;\"\\"}`. -/
def escTable : List (Nat × List Char) :=
  [',', '+', '<', '>', ';', dq, '\\'].map (fun c => (c.toNat, ['\\', c]))

/-- `s.translate(tbl)` for a code-point-keyed replacement table: every
character whose code point is in the table is replaced by its image, in a
single pass over the original characters. -/
def pyTranslate (tbl : List (Nat × List Char)) (s : List Char) : List Char :=
  s.flatMap (fun c =>
    match tbl.lookup c.toNat with
    | some r => r
    | none => [c])

/-- Fuelled digit expansion of a natural number; the fuel only has to exceed
the number of divisions by ten (see `renderNat_eq`). -/
def renderNatAux : Nat → Nat → List Char
  | 0, _ => []
  | fuel + 1, n =>
    if n < 10 then [Char.ofNat (48 + n)]
    else renderNatAux fuel (n / 10) ++ [Char.ofNat (48 + n % 10)]

/-- `str(n)` for a natural number: decimal digits, most significant first. -/
def renderNat (n : Nat) : List Char := renderNatAux (n + 1) n

/-- `int(s)` on a string of decimal digits. -/
def parseNat (s : List Char) : Nat :=
  s.foldl (fun a c => 10 * a + (c.toNat - 48)) 0

/-- `s.split(".")`: `""` splits to `[""]`, separators are not kept. -/
def splitDots : List Char → List (List Char)
  | [] => [[]]
  | c :: cs =>
    if c = '.' then [] :: splitDots cs
    else
      match splitDots cs with
      | [] => [[c]]
      | g :: gs => (c :: g) :: gs

/-- `sep.join(xs)`. -/
def joinSep (sep : List Char) : List (List Char) → List Char
  | [] => []
  | [x] => x
  | x :: xs => x ++ sep ++ joinSep sep xs

/-- `".".join(ps)`. -/
def joinDots (ps : List (List Char)) : List Char := joinSep ['.'] ps

/-- `at.dotted` of an asn1crypto OID: the arcs rendered in decimal, joined
with dots. -/
def dottedStr (arcs : List Nat) : List Char := joinDots (arcs.map renderNat)

/-- `[int(x) for x in t.split(".")]` from `x509_ordered_name.key`. -/
def parseArcs (t : List Char) : List Nat := (splitDots t).map parseNat

/-- The hexadecimal digit for `n < 16`, lowercase. -/
def hexDigitChar (n : Nat) : Char := Char.ofNat (if n < 10 then 48 + n else 87 + n)

/-- `binascii.hexlify(bs).decode()`: two lowercase hex digits per byte. -/
def hexlify (bs : List (Fin 256)) : List Char :=
  bs.flatMap (fun b => [hexDigitChar (b.val / 16), hexDigitChar (b.val % 16)])

/-! ### Data model -/

/-- An attribute value as exposed to the algorithm by the ASN.1 layer: either
a `DirectoryString` whose chosen type is `UTF8String` or `PrintableString`
(carrying `av.native`, which may be `none`), or any other value, carried as
its DER encoding `av.dump()`. -/
inductive AttrValue where
  | dirString (native : Option (List Char))
  | other (der : List (Fin 256))
deriving DecidableEq

/-- One AVA of the input `Name`: the attribute type OID (as its integer arcs,
rendered to the dotted string by `at.dotted`) and the attribute value. -/
structure AVA where
  arcs : List Nat
  val : AttrValue
deriving DecidableEq

/-- One element of the nested-list result of `x509_ordered_name`: the
`(oid, type, normalised_value, raw_value)` tuple. -/
structure OAVA where
  o : Nat
  t : List Char
  nv : List Char
  rv : List Char
deriving DecidableEq

/-- The source's `oids` registry: dotted OID, standard name, abbreviation. -/
def oids : List (List Char × List Char × List Char) :=
  [("2.5.4.3".data, "common_name".data, "cn".data),
   ("2.5.4.6".data, "country_name".data, "c".data),
   ("2.5.4.7".data, "locality_name".data, "l".data),
   ("2.5.4.8".data, "state_or_province_name".data, "st".data),
   ("2.5.4.9".data, "street_address".data, "street".data),
   ("2.5.4.10".data, "organization_name".data, "o".data),
   ("2.5.4.11".data, "organizational_unit_name".data, "ou".data),
   ("0.9.2342.19200300.100.1.1".data, "user_id".data, "uid".data),
   ("0.9.2342.19200300.100.1.25".data, "domain_component".data, "dc".data)]

/-- The body of the inner loop of `x509_ordered_name`: compute one
`(o, t, nv, rv)` tuple from one AVA. -/
def mkOAVA (ava : AVA) : OAVA :=
  let d := dottedStr ava.arcs
  let ot : Nat × List Char :=
    match oids.find? (fun p => p.1 == d) with
    | some p => (0, p.2.2)
    | none => (1, d)
  match ava.val with
  | .other der =>
    let v := '#' :: hexlify der
    ⟨ot.1, ot.2, v, v⟩
  | .dirString s? =>
    let rv0 := pyTranslate escTable (s?.getD [])
    let rv := if rv0.head? = some '#' then '\\' :: rv0 else rv0
    let nv := pyNFKD (pyLower (pyUpper (pyStrip inCws (reSubSpaces rv))))
    ⟨ot.1, ot.2, nv, rv⟩

/-! ### The sort key and within-RDN ordering -/

/-- Three-way comparison of naturals, as Python compares ints. -/
def cmpNat (m n : Nat) : Ordering :=
  if m < n then .lt else if n < m then .gt else .eq

/-- Python compares characters (one-character strings) by code point. -/
def cmpChar (c d : Char) : Ordering := cmpNat c.toNat d.toNat

/-- Lexicographic comparison of lists, as Python compares strings and lists:
a strict prefix is smaller. -/
def cmpList (cmp : α → α → Ordering) : List α → List α → Ordering
  | [], [] => .eq
  | [], _ :: _ => .lt
  | _ :: _, [] => .gt
  | a :: as, b :: bs => (cmp a b).then (cmpList cmp as bs)

/-- The second component of the Python sort key: the type string, or (android
mode, dotted-OID types only) the list of integer arcs. -/
inductive SndKey where
  | str (t : List Char)
  | arcs (a : List Nat)
deriving DecidableEq

/-- Comparison of second key components.  Python only ever compares
same-shaped components (the first key component decides otherwise); the
cross-shape cases are fixed arbitrarily to keep the comparator total. -/
def cmpSnd : SndKey → SndKey → Ordering
  | .str a, .str b => cmpList cmpChar a b
  | .arcs a, .arcs b => cmpList cmpNat a b
  | .str _, .arcs _ => .lt
  | .arcs _, .str _ => .gt

/-- The key function `x509_ordered_name.key`: `(o, [int(x) for x in
t.split(".")], nv)` when `android and o`, else `(o, t, nv)`. -/
def sortKey (android : Bool) (x : OAVA) : Nat × SndKey × List Char :=
  if android = true ∧ x.o ≠ 0 then (x.o, .arcs (parseArcs x.t), x.nv)
  else (x.o, .str x.t, x.nv)

/-- Lexicographic combination of two comparators, as Python compares tuples
component by component. -/
def cmpPair (c1 : α → α → Ordering) (c2 : β → β → Ordering) (x y : α × β) :
    Ordering :=
  (c1 x.1 y.1).then (c2 x.2 y.2)

/-- Python tuple comparison of sort keys. -/
def cmpKey : Nat × SndKey × List Char → Nat × SndKey × List Char → Ordering :=
  cmpPair cmpNat (cmpPair cmpSnd (cmpList cmpChar))

/-- `a` precedes-or-ties `b` under the sort key: the relation realised by
Python's stable `sorted(avas, key=key)`. -/
def keyRel (android : Bool) (a b : OAVA) : Prop :=
  cmpKey (sortKey android a) (sortKey android b) ≠ .gt

instance (android : Bool) : DecidableRel (keyRel android) := fun a b =>
  inferInstanceAs (Decidable (cmpKey (sortKey android a) (sortKey android b) ≠ .gt))

/-! ### The four public operations -/

/-- `x509_ordered_name(name, android=android)`: reverse the RDN sequence,
convert each AVA, and sort each RDN's AVAs by the sort key (stably). -/
def x509_ordered_name (android : Bool) (name : List (List AVA)) :
    List (List OAVA) :=
  name.reverse.map (fun rdn => List.insertionSort (keyRel android) (rdn.map mkOAVA))

/-- `x509_comparison_name`. -/
def x509_comparison_name (android : Bool) (name : List (List AVA)) :
    List (List (List Char × List Char)) :=
  (x509_ordered_name android name).map (fun avas => avas.map (fun x => (x.t, x.nv)))

/-- `x509_canonical_name`. -/
def x509_canonical_name (android : Bool) (name : List (List AVA)) : List Char :=
  joinSep [','] ((x509_comparison_name android name).map (fun avas =>
    joinSep ['+'] (avas.map (fun tv => tv.1 ++ '=' :: tv.2))))

/-- The quote character chosen by CPython `repr` for a string: single quote,
unless the string contains a single quote and no double quote. -/
def pyReprQuote (s : List Char) : Char :=
  if s.contains squote ∧ ¬ s.contains dq then dq else squote

/-- Model of `str.isprintable` at the character level (restricted table, see
the module docstring): ASCII printables, plus the non-ASCII printable
characters this development works with. -/
def pyPrintable (c : Char) : Bool :=
  (32 ≤ c.toNat ∧ c.toNat ≤ 126) ∨
    c ∈ ['ß', 'ẞ', 'İ', 'ı', Char.ofNat 0x307, Char.ofNat 0x732B]

/-- `w` lowercase hex digits of `n`, most significant first. -/
def hexFixed : Nat → Nat → List Char
  | 0, _ => []
  | w + 1, n => hexFixed w (n / 16) ++ [hexDigitChar (n % 16)]

/-- One character of CPython `repr` output: backslashes and the quote
character are backslash-escaped, tab/newline/carriage-return get mnemonic
escapes, other printable characters pass through, everything else becomes
`\xXX`, `\uXXXX` or `\UXXXXXXXX` by code-point size. -/
def pyCharEscape (q : Char) (c : Char) : List Char :=
  if c = '\\' ∨ c = q then ['\\', c]
  else if c = Char.ofNat 9 then ['\\', 't']
  else if c = Char.ofNat 10 then ['\\', 'n']
  else if c = Char.ofNat 13 then ['\\', 'r']
  else if pyPrintable c then [c]
  else if c.toNat < 256 then '\\' :: 'x' :: hexFixed 2 c.toNat
  else if c.toNat < 65536 then '\\' :: 'u' :: hexFixed 4 c.toNat
  else '\\' :: 'U' :: hexFixed 8 c.toNat

/-- `repr(s)[1:-1]`: the body of the CPython `repr` of a string, without the
surrounding quotes. -/
def pyReprBody (s : List Char) : List Char :=
  s.flatMap (pyCharEscape (pyReprQuote s))

/-- `x509_friendly_name`. -/
def x509_friendly_name (android : Bool) (name : List (List AVA)) : List Char :=
  joinSep (", ".data) ((x509_ordered_name android name).map (fun avas =>
    joinSep ['+'] (avas.map (fun x => pyUpper x.t ++ '=' :: pyReprBody x.rv))))

/-! ### Specification-side definitions

These definitions follow the wording of the specification (spec.md) rather
than the source, and are compared with the source-derived definitions in the
theorems below. -/

/-- Spec §4.2 step 1, stated as a rule on adjacent characters: collapse every
maximal run of one-or-more ASCII spaces to a single space. -/
def specCollapse : List Char → List Char
  | [] => []
  | [c] => [c]
  | c1 :: c2 :: cs =>
    if c1 = ' ' ∧ c2 = ' ' then specCollapse (c2 :: cs)
    else c1 :: specCollapse (c2 :: cs)

/-- Spec §4.2 step 2: strip from both ends every character whose code point
is ≤ U+0020, and no other character. -/
def specStrip (s : List Char) : List Char :=
  pyStrip (fun c => c.toNat ≤ 32) s

/-- Spec §4.2 step 4: the full normalization pipeline applied to `raw_value`:
collapse space runs, strip both ends at ≤ U+0020, uppercase then lowercase,
then normalization form KD. -/
def specNormalize (rv : List Char) : List Char :=
  pyNFKD (pyLower (pyUpper (specStrip (specCollapse rv))))

/-- The seven characters the spec says are escaped. -/
def specEscSet : List Char := [',', '+', '<', '>', ';', dq, '\\']

/-- Spec §4.2 escaping: a single order-preserving pass over the original
characters, replacing each occurrence of one of the seven characters by a
backslash followed by that character; inserted backslashes are never
re-escaped. -/
def specEscape : List Char → List Char
  | [] => []
  | c :: cs => (if c ∈ specEscSet then ['\\', c] else [c]) ++ specEscape cs

/-- Spec §4.2 `raw_value`: the escaped string, with one more backslash
prepended when the escaped string starts with `#`. -/
def specRawValue (s : List Char) : List Char :=
  let e := specEscape s
  if e.head? = some '#' then '\\' :: e else e

/-- The display function asserted by claim C9: printable characters of
`raw_value` (including backslashes) pass through unchanged, and only the
remaining non-printable characters are rendered in backslash-escaped
hex/unicode code-point notation. -/
def claimedDisplay (s : List Char) : List Char :=
  s.flatMap (fun c =>
    if pyPrintable c then [c]
    else if c.toNat < 256 then '\\' :: 'x' :: hexFixed 2 c.toNat
    else if c.toNat < 65536 then '\\' :: 'u' :: hexFixed 4 c.toNat
    else '\\' :: 'U' :: hexFixed 8 c.toNat)

/-- The friendly-name renderer asserted by claim C9: AVAs joined as
`TYPE=display(raw_value)` with `+` (type uppercased), RDNs joined with a
comma and a space, with `claimedDisplay` as the display function. -/
def claimedFriendlyName (android : Bool) (name : List (List AVA)) : List Char :=
  joinSep (", ".data) ((x509_ordered_name android name).map (fun avas =>
    joinSep ['+'] (avas.map (fun x => pyUpper x.t ++ '=' :: claimedDisplay x.rv))))

/-- The normalization pipeline of the source, as applied to an escaped raw
value inside `x509_ordered_name` (the `nv = ...` line). -/
def normValue (rv : List Char) : List Char :=
  pyNFKD (pyLower (pyUpper (pyStrip inCws (reSubSpaces rv))))

/-- Projection of an ordered AVA to its `(oid_flag, type, normalized_value)`
components, forgetting `raw_value`. -/
def projOAVA (x : OAVA) : Nat × List Char × List Char := (x.o, x.t, x.nv)

/-- Decidable conjunction of per-character stability conditions under which
re-normalization is the identity: no two adjacent ASCII spaces, no leading or
trailing character with code point ≤ U+0020, and every character unchanged by
upper-then-lower case folding and by NFKD. -/
def foldStable : List Char → Bool :=
  fun v =>
    (v.zip (v.drop 1)).all (fun p => ¬(p.1 = ' ' ∧ p.2 = ' ')) &&
    (match v.head? with | some c => ¬ c.toNat ≤ 32 | none => true) &&
    (match v.getLast? with | some c => ¬ c.toNat ≤ 32 | none => true) &&
    v.all (fun c => (charUpper c).flatMap charLower = [c] && charNFKD c = [c])

/-- A lawful three-way comparator: comparing equal means equal, swapping the
arguments swaps the ordering, and strict precedence is transitive. -/
structure LawfulCmp (cmp : α → α → Ordering) : Prop where
  eq_iff : ∀ a b, cmp a b = .eq ↔ a = b
  cmp_swap : ∀ a b, (cmp a b).swap = cmp b a
  cmp_lt_trans : ∀ {a b c}, cmp a b = .lt → cmp b c = .lt → cmp a c = .lt

/-- The precedes-or-ties relation on precomputed sort keys. -/
def keyDataLE (k1 k2 : Nat × SndKey × List Char) : Prop := cmpKey k1 k2 ≠ .gt

/-! ### Basic lemmas about the primitives -/

theorem toNat_ofNat_small (n : Nat) (h : n < 55296) : (Char.ofNat n).toNat = n := by
  have hv : Nat.isValidChar n := Or.inl h
  simp [Char.ofNat, Char.ofNatAux, Char.toNat, dif_pos hv, UInt32.toNat,
    BitVec.toNat_ofNatLt]

theorem toNat_inj {c d : Char} : c.toNat = d.toNat ↔ c = d := by
  constructor
  · intro h
    have := congrArg Char.ofNat h
    rwa [Char.ofNat_toNat, Char.ofNat_toNat] at this
  · intro h; rw [h]

theorem mem_cws_iff (c : Char) : c ∈ cws ↔ c.toNat ≤ 32 := by
  constructor
  · intro h
    rcases List.mem_map.1 h with ⟨i, hi, rfl⟩
    rw [List.mem_range] at hi
    rw [toNat_ofNat_small i (by omega)]
    omega
  · intro h
    have : Char.ofNat c.toNat = c := Char.ofNat_toNat c
    exact this ▸ List.mem_map_of_mem _ (List.mem_range.2 (by omega))

theorem inCws_eq (c : Char) : inCws c = decide (c.toNat ≤ 32) := by
  have h1 : inCws c = decide (c ∈ cws) := by
    simp [inCws, List.contains, List.elem_eq_mem]
  rw [h1]
  exact decide_eq_decide.2 (mem_cws_iff c)

theorem pyStrip_inCws_eq (s : List Char) :
    pyStrip inCws s = specStrip s := by
  have hp : inCws = fun c => decide (c.toNat ≤ 32) := funext inCws_eq
  rw [specStrip, hp]

/-! Equivalence of the two space-collapsing formulations. -/

theorem specCollapse_cons_ne {c : Char} (h : ¬ c = ' ') (cs : List Char) :
    specCollapse (c :: cs) = c :: specCollapse cs := by
  cases cs with
  | nil => rfl
  | cons c2 cs' => rw [specCollapse]; simp [h]

theorem specCollapse_space (cs : List Char) :
    specCollapse (' ' :: cs) =
      ' ' :: specCollapse (cs.dropWhile (fun d => d = ' ')) := by
  induction cs with
  | nil => rfl
  | cons c cs' ih =>
    by_cases h : c = ' '
    · subst h
      rw [specCollapse, if_pos ⟨rfl, rfl⟩, ih]
      simp [List.dropWhile_cons]
    · rw [specCollapse, if_neg (by simp [h]), List.dropWhile_cons,
        if_neg (by simpa using h), specCollapse_cons_ne h cs']

theorem reSubAux_spec (s : List Char) :
    reSubAux false s = specCollapse s ∧
      reSubAux true s = specCollapse (s.dropWhile (fun d => d = ' ')) := by
  induction s with
  | nil => exact ⟨rfl, rfl⟩
  | cons c cs ih =>
    by_cases h : c = ' '
    · subst h
      have e1 : reSubAux false (' ' :: cs) = ' ' :: reSubAux true cs := rfl
      have e2 : reSubAux true (' ' :: cs) = reSubAux true cs := rfl
      constructor
      · rw [e1, ih.2, specCollapse_space]
      · rw [e2, ih.2, List.dropWhile_cons, if_pos (by simp)]
    · constructor
      · rw [reSubAux, if_neg h, ih.1, specCollapse_cons_ne h]
      · rw [reSubAux, if_neg h, ih.1, List.dropWhile_cons,
          if_neg (by simpa using h), specCollapse_cons_ne h]

theorem reSubSpaces_eq_specCollapse (s : List Char) :
    reSubSpaces s = specCollapse s :=
  (reSubAux_spec s).1

/-! Equivalence of the two escaping formulations. -/

theorem lookup_escTable (c : Char) :
    escTable.lookup c.toNat =
      (if c ∈ specEscSet then some ['\\', c] else none) := by
  have hne : ∀ d : Char, c ≠ d → (c.toNat == d.toNat) = false := fun d hd =>
    beq_eq_false_iff_ne.2 (fun hn => hd (toNat_inj.1 hn))
  by_cases h1 : c = ','
  · subst h1; decide
  by_cases h2 : c = '+'
  · subst h2; decide
  by_cases h3 : c = '<'
  · subst h3; decide
  by_cases h4 : c = '>'
  · subst h4; decide
  by_cases h5 : c = ';'
  · subst h5; decide
  by_cases h6 : c = dq
  · subst h6; decide
  by_cases h7 : c = '\\'
  · subst h7; decide
  have hm : c ∉ specEscSet := by
    intro hmem
    simp only [specEscSet, List.mem_cons, List.not_mem_nil, or_false] at hmem
    rcases hmem with h | h | h | h | h | h | h
    · exact h1 h
    · exact h2 h
    · exact h3 h
    · exact h4 h
    · exact h5 h
    · exact h6 h
    · exact h7 h
  rw [if_neg hm]
  simp only [escTable, List.map_cons, List.map_nil, List.lookup,
    hne _ h1, hne _ h2, hne _ h3, hne _ h4, hne _ h5, hne _ h6, hne _ h7]

theorem pyTranslate_escTable (s : List Char) :
    pyTranslate escTable s = specEscape s := by
  induction s with
  | nil => rfl
  | cons c cs ih =>
    rw [pyTranslate, List.flatMap_cons, specEscape]
    rw [pyTranslate] at ih
    rw [ih, lookup_escTable]
    by_cases h : c ∈ specEscSet
    · rw [if_pos h, if_pos h]
    · rw [if_neg h, if_neg h]

/-! Decimal rendering and parsing round-trip. -/

theorem renderNatAux_fuel (f1 f2 n : Nat) (h1 : n < f1) (h2 : n < f2) :
    renderNatAux f1 n = renderNatAux f2 n := by
  induction f1 generalizing f2 n with
  | zero => omega
  | succ f1 ih =>
    cases f2 with
    | zero => omega
    | succ f2 =>
      rw [renderNatAux, renderNatAux]
      by_cases h : n < 10
      · rw [if_pos h, if_pos h]
      · have hd : n / 10 < n := Nat.div_lt_self (by omega) (by omega)
        rw [if_neg h, if_neg h]
        exact congrArg (· ++ _) (ih f2 (n / 10) (by omega) (by omega))

theorem renderNat_eq (n : Nat) :
    renderNat n = if n < 10 then [Char.ofNat (48 + n)]
      else renderNat (n / 10) ++ [Char.ofNat (48 + n % 10)] := by
  rw [renderNat, renderNatAux]
  by_cases h : n < 10
  · rw [if_pos h, if_pos h]
  · have hd : n / 10 < n := Nat.div_lt_self (by omega) (by omega)
    rw [if_neg h, if_neg h, renderNat]
    exact congrArg (· ++ _) (renderNatAux_fuel _ _ _ (by omega) (Nat.lt_succ_self _))

theorem renderNat_ne_nil (n : Nat) : renderNat n ≠ [] := by
  rw [renderNat_eq]
  split <;> simp

theorem mem_renderNat_digit {n : Nat} {c : Char} (h : c ∈ renderNat n) :
    48 ≤ c.toNat ∧ c.toNat ≤ 57 := by
  induction n using Nat.strong_induction_on with
  | _ n ih =>
    rw [renderNat_eq] at h
    by_cases hn : n < 10
    · rw [if_pos hn] at h
      rcases List.mem_singleton.1 h with rfl
      rw [toNat_ofNat_small _ (by omega)]
      omega
    · rw [if_neg hn] at h
      rcases List.mem_append.1 h with h' | h'
      · exact ih _ (Nat.div_lt_self (by omega) (by omega)) h'
      · rcases List.mem_singleton.1 h' with rfl
        have : n % 10 < 10 := Nat.mod_lt _ (by omega)
        rw [toNat_ofNat_small _ (by omega)]
        omega

theorem parseNat_append_digit (l : List Char) (c : Char) :
    parseNat (l ++ [c]) = 10 * parseNat l + (c.toNat - 48) := by
  rw [parseNat, List.foldl_append]
  rfl

theorem parseNat_renderNat (n : Nat) : parseNat (renderNat n) = n := by
  induction n using Nat.strong_induction_on with
  | _ n ih =>
    rw [renderNat_eq]
    by_cases hn : n < 10
    · rw [if_pos hn, parseNat, List.foldl_cons, List.foldl_nil,
        toNat_ofNat_small _ (by omega)]
      omega
    · rw [if_neg hn, parseNat_append_digit,
        ih _ (Nat.div_lt_self (by omega) (by omega)),
        toNat_ofNat_small _ (by have := Nat.mod_lt n (show 0 < 10 by omega); omega)]
      omega

theorem dot_not_mem_renderNat (n : Nat) : '.' ∉ renderNat n := by
  intro h
  have h1 := mem_renderNat_digit h
  have h2 : ('.').toNat = 46 := by decide
  omega

/-! Splitting on dots inverts joining on dots. -/

theorem splitDots_ne_nil (s : List Char) : splitDots s ≠ [] := by
  cases s with
  | nil => simp [splitDots]
  | cons c cs =>
    rw [splitDots]
    split
    · simp
    · split <;> simp

theorem splitDots_no_dot {p : List Char} (hp : '.' ∉ p) : splitDots p = [p] := by
  induction p with
  | nil => rfl
  | cons c cs ih =>
    have hc : ¬ c = '.' := fun h => hp (h ▸ List.mem_cons_self c cs)
    have hcs : '.' ∉ cs := fun h => hp (List.mem_cons_of_mem c h)
    rw [splitDots, if_neg hc, ih hcs]

theorem splitDots_append_dot {p : List Char} (hp : '.' ∉ p) (rest : List Char) :
    splitDots (p ++ '.' :: rest) = p :: splitDots rest := by
  induction p with
  | nil => simp [splitDots]
  | cons c cs ih =>
    have hc : ¬ c = '.' := fun h => hp (h ▸ List.mem_cons_self c cs)
    have hcs : '.' ∉ cs := fun h => hp (List.mem_cons_of_mem c h)
    rw [List.cons_append, splitDots, if_neg hc, ih hcs]

theorem splitDots_joinDots (ps : List (List Char)) (hps : ps ≠ [])
    (hdot : ∀ p ∈ ps, '.' ∉ p) : splitDots (joinDots ps) = ps := by
  induction ps with
  | nil => exact absurd rfl hps
  | cons p ps' ih =>
    cases ps' with
    | nil => exact splitDots_no_dot (hdot p (List.mem_cons_self p []))
    | cons q qs =>
      have h1 : joinDots (p :: q :: qs) = p ++ '.' :: joinDots (q :: qs) := by
        show p ++ ['.'] ++ joinSep ['.'] (q :: qs) = p ++ '.' :: joinSep ['.'] (q :: qs)
        rw [List.append_assoc]
        rfl
      rw [h1, splitDots_append_dot (hdot p (List.mem_cons_self p _)),
        ih (List.cons_ne_nil q qs) (fun r hr => hdot r (List.mem_cons_of_mem p hr))]

theorem parseArcs_dottedStr (arcs : List Nat) (h : arcs ≠ []) :
    parseArcs (dottedStr arcs) = arcs := by
  rw [parseArcs, dottedStr, splitDots_joinDots _ (by simpa using h)
    (fun p hp => by rcases List.mem_map.1 hp with ⟨n, _, rfl⟩; exact dot_not_mem_renderNat n)]
  rw [List.map_map]
  have : parseNat ∘ renderNat = id := funext parseNat_renderNat
  rw [this, List.map_id]

/-! ### Lawfulness of the comparators -/

theorem lawful_cmpNat : LawfulCmp cmpNat := by
  refine ⟨?_, ?_, ?_⟩
  · intro a b
    unfold cmpNat
    split_ifs <;> simp <;> omega
  · intro a b
    unfold cmpNat
    split_ifs <;> simp [Ordering.swap] <;> omega
  · intro a b c h1 h2
    unfold cmpNat at h1 h2 ⊢
    split_ifs at h1 h2 ⊢ <;> simp_all <;> omega

theorem lawful_cmpChar : LawfulCmp cmpChar := by
  refine ⟨?_, ?_, ?_⟩
  · intro a b
    rw [cmpChar, lawful_cmpNat.eq_iff]
    exact toNat_inj
  · intro a b
    exact lawful_cmpNat.cmp_swap _ _
  · intro a b c h1 h2
    exact lawful_cmpNat.cmp_lt_trans h1 h2

theorem lawful_cmpList {cmp : α → α → Ordering} (h : LawfulCmp cmp) :
    LawfulCmp (cmpList cmp) := by
  refine ⟨?_, ?_, ?_⟩
  · intro a
    induction a with
    | nil => intro b; cases b <;> simp [cmpList]
    | cons x xs ih =>
      intro b
      cases b with
      | nil => simp [cmpList]
      | cons y ys =>
        rw [cmpList, Ordering.then_eq_eq, h.eq_iff, ih]
        constructor
        · rintro ⟨rfl, rfl⟩; rfl
        · rintro h'; cases h'; exact ⟨rfl, rfl⟩
  · intro a
    induction a with
    | nil => intro b; cases b <;> simp [cmpList, Ordering.swap]
    | cons x xs ih =>
      intro b
      cases b with
      | nil => simp [cmpList, Ordering.swap]
      | cons y ys =>
        rw [cmpList, Ordering.swap_then, h.cmp_swap, ih, cmpList]
  · intro a
    induction a with
    | nil =>
      intro b c h1 h2
      cases b <;> cases c <;> simp_all [cmpList]
    | cons x xs ih =>
      intro b c h1 h2
      cases b with
      | nil => simp [cmpList] at h1
      | cons y ys =>
        cases c with
        | nil => simp [cmpList] at h2
        | cons z zs =>
          rw [cmpList, Ordering.then_eq_lt] at h1 h2 ⊢
          rcases h1 with h1 | ⟨h1e, h1r⟩
          · rcases h2 with h2 | ⟨h2e, h2r⟩
            · exact Or.inl (h.cmp_lt_trans h1 h2)
            · rcases (h.eq_iff _ _).1 h2e
              exact Or.inl h1
          · rcases (h.eq_iff _ _).1 h1e
            rcases h2 with h2 | ⟨h2e, h2r⟩
            · exact Or.inl h2
            · rcases (h.eq_iff _ _).1 h2e
              exact Or.inr ⟨(h.eq_iff _ _).2 rfl, ih h1r h2r⟩

theorem lawful_cmpPair {c1 : α → α → Ordering} {c2 : β → β → Ordering}
    (h1 : LawfulCmp c1) (h2 : LawfulCmp c2) : LawfulCmp (cmpPair c1 c2) := by
  refine ⟨?_, ?_, ?_⟩
  · rintro ⟨a1, a2⟩ ⟨b1, b2⟩
    rw [cmpPair, Ordering.then_eq_eq, h1.eq_iff, h2.eq_iff, Prod.mk.injEq]
  · rintro ⟨a1, a2⟩ ⟨b1, b2⟩
    rw [cmpPair, Ordering.swap_then, h1.cmp_swap, h2.cmp_swap, cmpPair]
  · rintro ⟨a1, a2⟩ ⟨b1, b2⟩ ⟨c1', c2'⟩ hab hbc
    rw [cmpPair, Ordering.then_eq_lt] at hab hbc ⊢
    rcases hab with hab | ⟨habe, habr⟩
    · rcases hbc with hbc | ⟨hbce, hbcr⟩
      · exact Or.inl (h1.cmp_lt_trans hab hbc)
      · rcases (h1.eq_iff _ _).1 hbce
        exact Or.inl hab
    · rcases (h1.eq_iff _ _).1 habe
      rcases hbc with hbc | ⟨hbce, hbcr⟩
      · exact Or.inl hbc
      · rcases (h1.eq_iff _ _).1 hbce
        exact Or.inr ⟨(h1.eq_iff _ _).2 rfl, h2.cmp_lt_trans habr hbcr⟩

theorem lawful_cmpSnd : LawfulCmp cmpSnd := by
  have hc := lawful_cmpList lawful_cmpChar
  have hn := lawful_cmpList lawful_cmpNat
  refine ⟨?_, ?_, ?_⟩
  · rintro (a | a) (b | b) <;> simp [cmpSnd, hc.eq_iff, hn.eq_iff]
  · rintro (a | a) (b | b)
    · exact hc.cmp_swap a b
    · rfl
    · rfl
    · exact hn.cmp_swap a b
  · rintro (a | a) (b | b) (c | c) h1 h2 <;> simp_all [cmpSnd]
    · exact hc.cmp_lt_trans h1 h2
    · exact hn.cmp_lt_trans h1 h2

theorem lawful_cmpKey : LawfulCmp cmpKey :=
  lawful_cmpPair lawful_cmpNat
    (lawful_cmpPair lawful_cmpSnd (lawful_cmpList lawful_cmpChar))

theorem LawfulCmp.le_trans {cmp : α → α → Ordering} (h : LawfulCmp cmp)
    {a b c : α} (h1 : cmp a b ≠ .gt) (h2 : cmp b c ≠ .gt) : cmp a c ≠ .gt := by
  cases hab : cmp a b with
  | gt => exact absurd hab h1
  | eq => rcases (h.eq_iff _ _).1 hab; exact h2
  | lt =>
    cases hbc : cmp b c with
    | gt => exact absurd hbc h2
    | eq => rcases (h.eq_iff _ _).1 hbc; rw [hab]; simp
    | lt => rw [h.cmp_lt_trans hab hbc]; simp

theorem LawfulCmp.le_total {cmp : α → α → Ordering} (h : LawfulCmp cmp)
    (a b : α) : cmp a b ≠ .gt ∨ cmp b a ≠ .gt := by
  cases hab : cmp a b with
  | lt => exact Or.inl (by simp)
  | eq => exact Or.inl (by simp)
  | gt =>
    refine Or.inr ?_
    rw [← h.cmp_swap, hab]
    simp [Ordering.swap]

theorem LawfulCmp.antisymm {cmp : α → α → Ordering} (h : LawfulCmp cmp)
    {a b : α} (h1 : cmp a b ≠ .gt) (h2 : cmp b a ≠ .gt) : a = b := by
  cases hab : cmp a b with
  | gt => exact absurd hab h1
  | eq => exact (h.eq_iff _ _).1 hab
  | lt =>
    exfalso
    apply h2
    rw [← h.cmp_swap, hab]
    rfl

instance keyRel_total (android : Bool) : IsTotal OAVA (keyRel android) :=
  ⟨fun a b => lawful_cmpKey.le_total _ _⟩

instance keyRel_trans (android : Bool) : IsTrans OAVA (keyRel android) :=
  ⟨fun _ _ _ h1 h2 => lawful_cmpKey.le_trans h1 h2⟩

instance keyDataLE_antisymm : IsAntisymm (Nat × SndKey × List Char) keyDataLE :=
  ⟨fun _ _ h1 h2 => lawful_cmpKey.antisymm h1 h2⟩

instance keyDataLE_trans : IsTrans (Nat × SndKey × List Char) keyDataLE :=
  ⟨fun _ _ _ h1 h2 => lawful_cmpKey.le_trans h1 h2⟩

/-! ### Structure of `x509_ordered_name` -/

theorem mem_x509_ordered_name {name : List (List AVA)} {rdn : List AVA}
    {ava : AVA} (android : Bool) (h1 : rdn ∈ name) (h2 : ava ∈ rdn) :
    ∃ ordn ∈ x509_ordered_name android name, mkOAVA ava ∈ ordn := by
  refine ⟨List.insertionSort (keyRel android) (rdn.map mkOAVA), ?_, ?_⟩
  · exact List.mem_map_of_mem _ (List.mem_reverse.2 h1)
  · rw [List.mem_insertionSort]
    exact List.mem_map_of_mem _ h2

theorem mkOAVA_other_val (arcs : List Nat) (der : List (Fin 256)) :
    (mkOAVA ⟨arcs, .other der⟩).nv = '#' :: hexlify der ∧
      (mkOAVA ⟨arcs, .other der⟩).rv = '#' :: hexlify der :=
  ⟨rfl, rfl⟩

theorem normValue_eq_specNormalize (rv : List Char) :
    normValue rv = specNormalize rv := by
  rw [normValue, specNormalize, reSubSpaces_eq_specCollapse, pyStrip_inCws_eq]

theorem mkOAVA_dirString_nv (arcs : List Nat) (s? : Option (List Char)) :
    (mkOAVA ⟨arcs, .dirString s?⟩).nv =
      specNormalize (mkOAVA ⟨arcs, .dirString s?⟩).rv := by
  have h : (mkOAVA ⟨arcs, .dirString s?⟩).nv =
      normValue (mkOAVA ⟨arcs, .dirString s?⟩).rv := rfl
  rw [h, normValue_eq_specNormalize]

theorem mkOAVA_dirString_rv (arcs : List Nat) (s? : Option (List Char)) :
    (mkOAVA ⟨arcs, .dirString s?⟩).rv = specRawValue (s?.getD []) := by
  have h : (mkOAVA ⟨arcs, .dirString s?⟩).rv =
      (if (pyTranslate escTable (s?.getD [])).head? = some '#'
       then '\\' :: pyTranslate escTable (s?.getD [])
       else pyTranslate escTable (s?.getD [])) := rfl
  rw [h, specRawValue, pyTranslate_escTable]

theorem mkOAVA_dirString_rv_head (arcs : List Nat) (s? : Option (List Char)) :
    (mkOAVA ⟨arcs, .dirString s?⟩).rv.head? ≠ some '#' := by
  have h : (mkOAVA ⟨arcs, .dirString s?⟩).rv =
      (if (pyTranslate escTable (s?.getD [])).head? = some '#'
       then '\\' :: pyTranslate escTable (s?.getD [])
       else pyTranslate escTable (s?.getD [])) := rfl
  rw [h]
  split
  · intro hc
    rw [List.head?_cons, Option.some.injEq] at hc
    exact absurd hc (by decide)
  · next hne => exact hne

theorem length_x509_ordered_name (android : Bool) (name : List (List AVA)) :
    (x509_ordered_name android name).length = name.length := by
  rw [x509_ordered_name, List.length_map, List.length_reverse]

theorem getElem_x509_ordered_name (android : Bool) (name : List (List AVA))
    (i : Nat) (h : i < (x509_ordered_name android name).length) :
    (x509_ordered_name android name)[i] =
      List.insertionSort (keyRel android)
        ((name.get ⟨name.length - 1 - i, by
          rw [length_x509_ordered_name] at h; omega⟩).map mkOAVA) := by
  simp only [x509_ordered_name, List.getElem_map, List.getElem_reverse,
    List.get_eq_getElem]

/-! ### Invariance of the sorted key sequence under input permutation -/

theorem keyRel_iff_keyDataLE (android : Bool) (a b : OAVA) :
    keyRel android a b ↔ keyDataLE (sortKey android a) (sortKey android b) :=
  Iff.rfl

theorem sorted_keys_insertionSort (android : Bool) (l : List OAVA) :
    List.Sorted keyDataLE
      ((List.insertionSort (keyRel android) l).map (sortKey android)) := by
  have hs : List.Sorted (keyRel android) (List.insertionSort (keyRel android) l) :=
    List.sorted_insertionSort (keyRel android) l
  exact List.Pairwise.map _ (fun a b hab => hab) hs

theorem mkOAVA_oid_t {ava : AVA} (h : (mkOAVA ava).o ≠ 0) :
    (mkOAVA ava).t = dottedStr ava.arcs := by
  rw [mkOAVA] at h ⊢
  rcases hf : oids.find? (fun p => p.1 == dottedStr ava.arcs) with _ | p
  · cases hv : ava.val <;> simp [hf, hv]
  · cases hv : ava.val <;> simp [hf, hv] at h

theorem sortKey_determines_proj {android : Bool} {a b : AVA}
    (ha : a.arcs ≠ []) (hb : b.arcs ≠ [])
    (hk : sortKey android (mkOAVA a) = sortKey android (mkOAVA b)) :
    projOAVA (mkOAVA a) = projOAVA (mkOAVA b) := by
  simp only [sortKey] at hk
  by_cases h1 : android = true ∧ (mkOAVA a).o ≠ 0
  · have h2 : android = true ∧ (mkOAVA b).o ≠ 0 := by
      refine ⟨h1.1, ?_⟩
      by_contra hb0
      rw [if_pos h1, if_neg (by tauto)] at hk
      have := congrArg (fun p => p.2.1) hk
      simp at this
    rw [if_pos h1, if_pos h2] at hk
    have harcs : parseArcs (mkOAVA a).t = parseArcs (mkOAVA b).t := by
      have := congrArg (fun p => p.2.1) hk
      simpa using this
    rw [mkOAVA_oid_t h1.2, mkOAVA_oid_t h2.2,
      parseArcs_dottedStr _ ha, parseArcs_dottedStr _ hb] at harcs
    have ht : (mkOAVA a).t = (mkOAVA b).t := by
      rw [mkOAVA_oid_t h1.2, mkOAVA_oid_t h2.2, harcs]
    have ho : (mkOAVA a).o = (mkOAVA b).o := congrArg (fun p => p.1) hk
    have hnv : (mkOAVA a).nv = (mkOAVA b).nv := by
      have := congrArg (fun p => p.2.2) hk
      simpa using this
    rw [projOAVA, projOAVA, ho, ht, hnv]
  · have h2 : ¬ (android = true ∧ (mkOAVA b).o ≠ 0) := by
      intro hb2
      rw [if_pos hb2, if_neg h1] at hk
      have := congrArg (fun p => p.2.1) hk
      simp at this
    rw [if_neg h1, if_neg h2] at hk
    have ho : (mkOAVA a).o = (mkOAVA b).o := congrArg (fun p => p.1) hk
    have ht : (mkOAVA a).t = (mkOAVA b).t := by
      have := congrArg (fun p => p.2.1) hk
      simpa using this
    have hnv : (mkOAVA a).nv = (mkOAVA b).nv := by
      have := congrArg (fun p => p.2.2) hk
      simpa using this
    rw [projOAVA, projOAVA, ho, ht, hnv]

theorem proj_insertionSort_perm_invariant (android : Bool)
    {rdn1 rdn2 : List AVA} (hv : ∀ a ∈ rdn1, a.arcs ≠ [])
    (hperm : List.Perm rdn1 rdn2) :
    (List.insertionSort (keyRel android) (rdn1.map mkOAVA)).map projOAVA =
      (List.insertionSort (keyRel android) (rdn2.map mkOAVA)).map projOAVA := by
  set l1 := List.insertionSort (keyRel android) (rdn1.map mkOAVA) with hl1
  set l2 := List.insertionSort (keyRel android) (rdn2.map mkOAVA) with hl2
  have hp : List.Perm l1 l2 :=
    ((List.perm_insertionSort _ _).trans (hperm.map mkOAVA)).trans
      (List.perm_insertionSort _ _).symm
  have hkeys : l1.map (sortKey android) = l2.map (sortKey android) :=
    List.eq_of_perm_of_sorted (hp.map _)
      (sorted_keys_insertionSort android _) (sorted_keys_insertionSort android _)
  have hlen : l1.length = l2.length := hp.length_eq
  refine List.ext_getElem (by simp [hlen]) ?_
  intro i hi1 hi2
  rw [List.getElem_map, List.getElem_map]
  have hi1' : i < l1.length := by simpa using hi1
  have hi2' : i < l2.length := by simpa using hi2
  have hmem1 : l1[i] ∈ rdn1.map mkOAVA := by
    rw [← List.mem_insertionSort (keyRel android)]
    exact List.getElem_mem hi1'
  have hmem2 : l2[i] ∈ rdn2.map mkOAVA := by
    rw [← List.mem_insertionSort (keyRel android)]
    exact List.getElem_mem hi2'
  rcases List.mem_map.1 hmem1 with ⟨a, hamem, ha⟩
  rcases List.mem_map.1 hmem2 with ⟨b, hbmem, hb⟩
  have hk : sortKey android l1[i] = sortKey android l2[i] := by
    have hq := congrArg (fun l => l[i]?) hkeys
    simp only [List.getElem?_map] at hq
    rw [List.getElem?_eq_getElem hi1', List.getElem?_eq_getElem hi2'] at hq
    simpa using hq
  rw [← ha, ← hb]
  exact sortKey_determines_proj (hv a hamem)
    (hv b (hperm.mem_iff.2 hbmem)) (by rw [ha, hb]; exact hk)

/-! ### Fixed points of the normalization stages -/

theorem specCollapse_of_noAdj {v : List Char}
    (h : (v.zip (v.drop 1)).all (fun p => ¬(p.1 = ' ' ∧ p.2 = ' ')) = true) :
    specCollapse v = v := by
  induction v with
  | nil => rfl
  | cons c1 rest ih =>
    cases rest with
    | nil => rfl
    | cons c2 cs =>
      have hz : (c1 :: c2 :: cs).zip ((c1 :: c2 :: cs).drop 1) =
          (c1, c2) :: ((c2 :: cs).zip ((c2 :: cs).drop 1)) := rfl
      rw [hz, List.all_cons, Bool.and_eq_true] at h
      have h1 : ¬ (c1 = ' ' ∧ c2 = ' ') := by
        have h' := h.1
        simp only [decide_eq_true_eq] at h'
        exact h'
      rw [specCollapse, if_neg h1, ih h.2]

theorem dropWhile_eq_self_of_head {p : Char → Bool} {v : List Char}
    (h : ∀ c ∈ v.head?, p c = false) : v.dropWhile p = v := by
  cases v with
  | nil => rfl
  | cons c cs =>
    rw [List.dropWhile_cons, if_neg (by simp [h c rfl])]

theorem pyStrip_eq_self {p : Char → Bool} {v : List Char}
    (h1 : ∀ c ∈ v.head?, p c = false) (h2 : ∀ c ∈ v.getLast?, p c = false) :
    pyStrip p v = v := by
  rw [pyStrip, dropWhile_eq_self_of_head h1,
    dropWhile_eq_self_of_head (by rw [List.head?_reverse]; exact h2),
    List.reverse_reverse]

theorem flatMap_eq_self_of_all {f : Char → List Char} {v : List Char}
    (h : ∀ c ∈ v, f c = [c]) : v.flatMap f = v := by
  induction v with
  | nil => rfl
  | cons c cs ih =>
    rw [List.flatMap_cons, h c (List.mem_cons_self c cs),
      ih (fun d hd => h d (List.mem_cons_of_mem c hd)), List.singleton_append]

theorem lower_upper_eq_self {v : List Char}
    (h : ∀ c ∈ v, (charUpper c).flatMap charLower = [c]) :
    pyLower (pyUpper v) = v := by
  rw [pyUpper, pyLower, List.flatMap_assoc]
  exact flatMap_eq_self_of_all h

theorem hexDigitChar_range {n : Nat} (h : n < 16) :
    (48 ≤ (hexDigitChar n).toNat ∧ (hexDigitChar n).toNat ≤ 57) ∨
      (97 ≤ (hexDigitChar n).toNat ∧ (hexDigitChar n).toNat ≤ 102) := by
  rw [hexDigitChar]
  split
  · rw [toNat_ofNat_small _ (by omega)]; omega
  · rw [toNat_ofNat_small _ (by omega)]; omega

theorem mem_hexlify_range {der : List (Fin 256)} {c : Char} (h : c ∈ hexlify der) :
    (48 ≤ c.toNat ∧ c.toNat ≤ 57) ∨ (97 ≤ c.toNat ∧ c.toNat ≤ 102) := by
  rw [hexlify, List.mem_flatMap] at h
  obtain ⟨b, _, hc⟩ := h
  have hb := b.isLt
  simp only [List.mem_cons, List.mem_singleton, List.not_mem_nil, or_false] at hc
  rcases hc with rfl | rfl
  · exact hexDigitChar_range (by omega)
  · exact hexDigitChar_range (Nat.mod_lt _ (by omega))

theorem cmpKey_o_ne {o1 o2 : Nat} {s1 s2 : SndKey} {n1 n2 : List Char}
    (h : o1 ≠ o2) : cmpKey (o1, s1, n1) (o2, s2, n2) = cmpNat o1 o2 := by
  rw [cmpKey, cmpPair]
  cases hc : cmpNat o1 o2 with
  | lt => rfl
  | gt => rfl
  | eq => exact absurd ((lawful_cmpNat.eq_iff _ _).1 hc) h

theorem keyRel_true_iff_false_of_o0 (a b : OAVA) (h : a.o = 0 ∨ b.o = 0) :
    (keyRel true a b ↔ keyRel false a b) := by
  have hfst : ∀ (android : Bool) (x : OAVA), (sortKey android x).1 = x.o := by
    intro android x
    rw [sortKey]
    split <;> rfl
  by_cases hab : a.o = b.o
  · have ha0 : a.o = 0 := by
      rcases h with h0 | h0
      · exact h0
      · omega
    have hb0 : b.o = 0 := by omega
    rw [keyRel, keyRel, sortKey, sortKey, sortKey, sortKey,
      if_neg (by simp [ha0]), if_neg (by simp [hb0]),
      if_neg (by simp), if_neg (by simp)]
  · have h1 := hfst true a
    have h2 := hfst true b
    have h3 := hfst false a
    have h4 := hfst false b
    rcases hka : sortKey true a with ⟨o1, s1, n1⟩
    rcases hkb : sortKey true b with ⟨o2, s2, n2⟩
    rcases hka2 : sortKey false a with ⟨o3, s3, n3⟩
    rcases hkb2 : sortKey false b with ⟨o4, s4, n4⟩
    rw [hka] at h1
    rw [hkb] at h2
    rw [hka2] at h3
    rw [hkb2] at h4
    simp only at h1 h2 h3 h4
    rw [keyRel, keyRel, hka, hkb, hka2, hkb2,
      cmpKey_o_ne (by omega), cmpKey_o_ne (by omega), h1, h2, h3, h4]

theorem ordered_proj_eq_of_forall2 (android : Bool) {L1 L2 : List (List AVA)}
    (hv : ∀ rdn ∈ L1, ∀ a ∈ rdn, a.arcs ≠ [])
    (hperm : List.Forall₂ List.Perm L1 L2) :
    (L1.map (fun rdn => List.insertionSort (keyRel android) (rdn.map mkOAVA))).map
        (fun l => l.map projOAVA) =
      (L2.map (fun rdn => List.insertionSort (keyRel android) (rdn.map mkOAVA))).map
        (fun l => l.map projOAVA) := by
  induction hperm with
  | nil => rfl
  | cons hp hps ih =>
    rw [List.map_cons, List.map_cons, List.map_cons, List.map_cons]
    refine congrArg₂ _ ?_ (ih (fun rdn hr => hv rdn (List.mem_cons_of_mem _ hr)))
    exact proj_insertionSort_perm_invariant android
      (hv _ (List.mem_cons_self _ _)) hp

/-! ### The claims -/

/-- C1: for every attribute value whose ASN.1 type is UTF8String or
PrintableString (via DirectoryString), the `normalized_value` produced by
`x509_ordered_name` equals the result of applying to `raw_value`, in this
order: collapse of each maximal run of ASCII spaces to one space, stripping
from both ends of every character with code point ≤ U+0020, uppercasing then
lowercasing, and Unicode normalization form KD (`specNormalize`, written from
the spec's words).  The pipeline starts from the escaped `raw_value`. -/
theorem claim_C1 (android : Bool) (name : List (List AVA)) (rdn : List AVA)
    (ava : AVA) (h1 : rdn ∈ name) (h2 : ava ∈ rdn)
    (s? : Option (List Char)) (hv : ava.val = .dirString s?) :
    ∃ ordn ∈ x509_ordered_name android name, mkOAVA ava ∈ ordn ∧
      (mkOAVA ava).nv = specNormalize (mkOAVA ava).rv := by
  obtain ⟨ordn, ho, hm⟩ := mem_x509_ordered_name android h1 h2
  refine ⟨ordn, ho, hm, ?_⟩
  obtain ⟨arcs, val⟩ := ava
  cases hv
  exact mkOAVA_dirString_nv arcs s?

theorem claim_C1_witness :
    ∃ ordn ∈ x509_ordered_name false [[⟨[2, 5, 4, 3], .dirString (some " Foo".data)⟩]],
      mkOAVA ⟨[2, 5, 4, 3], .dirString (some " Foo".data)⟩ ∈ ordn ∧
        (mkOAVA ⟨[2, 5, 4, 3], .dirString (some " Foo".data)⟩).nv =
          specNormalize (mkOAVA ⟨[2, 5, 4, 3], .dirString (some " Foo".data)⟩).rv :=
  claim_C1 false _ _ _ (List.mem_singleton.2 rfl) (List.mem_singleton.2 rfl)
    (some " Foo".data) rfl

/-- C2: the end-to-end example: for the Name with RDNs `{OU=a}`,
`{CN=" Foo", CN="bar "}`, `{OU=b}`, `{C=xx}` in encoding order,
`x509_canonical_name` in default mode returns exactly
`c=xx,ou=b,cn=bar+cn=foo,ou=a`. -/
theorem claim_C2 :
    x509_canonical_name false
      [[⟨[2, 5, 4, 11], .dirString (some "a".data)⟩],
       [⟨[2, 5, 4, 3], .dirString (some " Foo".data)⟩,
        ⟨[2, 5, 4, 3], .dirString (some "bar ".data)⟩],
       [⟨[2, 5, 4, 11], .dirString (some "b".data)⟩],
       [⟨[2, 5, 4, 6], .dirString (some "xx".data)⟩]] =
      "c=xx,ou=b,cn=bar+cn=foo,ou=a".data := by
  decide

/-- C3: every attribute value that is not a UTF8String/PrintableString
directory string yields, in the output of `x509_ordered_name`, a raw_value
and a normalized_value that are both `#` followed by the lowercase
hexadecimal encoding of the value's DER bytes. -/
theorem claim_C3 (android : Bool) (name : List (List AVA)) (rdn : List AVA)
    (ava : AVA) (h1 : rdn ∈ name) (h2 : ava ∈ rdn)
    (der : List (Fin 256)) (hv : ava.val = .other der) :
    ∃ ordn ∈ x509_ordered_name android name, mkOAVA ava ∈ ordn ∧
      (mkOAVA ava).rv = '#' :: hexlify der ∧
      (mkOAVA ava).nv = (mkOAVA ava).rv ∧
      ∀ c ∈ hexlify der,
        (48 ≤ c.toNat ∧ c.toNat ≤ 57) ∨ (97 ≤ c.toNat ∧ c.toNat ≤ 102) := by
  obtain ⟨ordn, ho, hm⟩ := mem_x509_ordered_name android h1 h2
  refine ⟨ordn, ho, hm, ?_, ?_, fun c hc => mem_hexlify_range hc⟩
  · obtain ⟨arcs, val⟩ := ava
    cases hv
    exact (mkOAVA_other_val arcs der).2
  · obtain ⟨arcs, val⟩ := ava
    cases hv
    rw [(mkOAVA_other_val arcs der).1, (mkOAVA_other_val arcs der).2]

theorem claim_C3_witness :
    ∃ ordn ∈ x509_ordered_name false [[⟨[0, 1, 2, 3], .other [12, 2, 51, 55]⟩]],
      mkOAVA ⟨[0, 1, 2, 3], .other [12, 2, 51, 55]⟩ ∈ ordn ∧
        (mkOAVA ⟨[0, 1, 2, 3], .other [12, 2, 51, 55]⟩).rv =
          '#' :: hexlify [12, 2, 51, 55] ∧
        (mkOAVA ⟨[0, 1, 2, 3], .other [12, 2, 51, 55]⟩).nv =
          (mkOAVA ⟨[0, 1, 2, 3], .other [12, 2, 51, 55]⟩).rv ∧
        ∀ c ∈ hexlify [12, 2, 51, 55],
          (48 ≤ c.toNat ∧ c.toNat ≤ 57) ∨ (97 ≤ c.toNat ∧ c.toNat ≤ 102) :=
  claim_C3 false _ _ _ (List.mem_singleton.2 rfl) (List.mem_singleton.2 rfl)
    [12, 2, 51, 55] rfl

/-- C4: for every directory-string attribute value with native string `s`
(empty when decoding yields none), `raw_value` is the single order-preserving
escaping pass over `s` (each of the seven characters `, + < > ; " \`
replaced by a backslash and the character, inserted backslashes never
re-escaped), with one extra backslash prepended when the escaped string
starts with `#` (`specRawValue`, written from the spec's words). -/
theorem claim_C4 (android : Bool) (name : List (List AVA)) (rdn : List AVA)
    (ava : AVA) (h1 : rdn ∈ name) (h2 : ava ∈ rdn)
    (s? : Option (List Char)) (hv : ava.val = .dirString s?) :
    ∃ ordn ∈ x509_ordered_name android name, mkOAVA ava ∈ ordn ∧
      (mkOAVA ava).rv = specRawValue (s?.getD []) := by
  obtain ⟨ordn, ho, hm⟩ := mem_x509_ordered_name android h1 h2
  refine ⟨ordn, ho, hm, ?_⟩
  obtain ⟨arcs, val⟩ := ava
  cases hv
  exact mkOAVA_dirString_rv arcs s?

theorem claim_C4_witness :
    ∃ ordn ∈ x509_ordered_name false [[⟨[2, 5, 4, 3], .dirString (some "#a,b".data)⟩]],
      mkOAVA ⟨[2, 5, 4, 3], .dirString (some "#a,b".data)⟩ ∈ ordn ∧
        (mkOAVA ⟨[2, 5, 4, 3], .dirString (some "#a,b".data)⟩).rv =
          specRawValue "#a,b".data :=
  claim_C4 false _ _ _ (List.mem_singleton.2 rfl) (List.mem_singleton.2 rfl)
    (some "#a,b".data) rfl

/-- C5: in an RDN with two OID-named AVAs `0.1.2.3` and `0.1.11.3`,
`x509_ordered_name` places `0.1.2.3` first in android (numeric) mode and
`0.1.11.3` first in default mode; in numeric mode the second key component of
an `oid_flag = 1` AVA is the integer-arc list of its dotted OID (which
recovers the arcs the dotted string was rendered from), and comparisons
involving an `oid_flag = 0` AVA agree in both modes. -/
theorem claim_C5 :
    ((x509_ordered_name true
        [[⟨[0, 1, 2, 3], .other [12, 2, 51, 55]⟩,
          ⟨[0, 1, 11, 3], .other [12, 2, 52, 50]⟩]]).map
          (fun l => l.map OAVA.t) =
        [["0.1.2.3".data, "0.1.11.3".data]] ∧
      (x509_ordered_name false
        [[⟨[0, 1, 2, 3], .other [12, 2, 51, 55]⟩,
          ⟨[0, 1, 11, 3], .other [12, 2, 52, 50]⟩]]).map
          (fun l => l.map OAVA.t) =
        [["0.1.11.3".data, "0.1.2.3".data]]) ∧
    (∀ x : OAVA, x.o ≠ 0 →
      sortKey true x = (x.o, SndKey.arcs (parseArcs x.t), x.nv)) ∧
    (∀ arcs : List Nat, arcs ≠ [] → parseArcs (dottedStr arcs) = arcs) ∧
    (∀ a b : OAVA, a.o = 0 ∨ b.o = 0 → (keyRel true a b ↔ keyRel false a b)) := by
  refine ⟨⟨by decide, by decide⟩, ?_, parseArcs_dottedStr, keyRel_true_iff_false_of_o0⟩
  intro x hx
  rw [sortKey, if_pos ⟨rfl, hx⟩]

theorem claim_C5_witness :
    keyRel true ⟨0, "cn".data, "x".data, "x".data⟩ ⟨1, "0.1.2.3".data, "y".data, "y".data⟩ ↔
      keyRel false ⟨0, "cn".data, "x".data, "x".data⟩ ⟨1, "0.1.2.3".data, "y".data, "y".data⟩ :=
  claim_C5.2.2.2 ⟨0, "cn".data, "x".data, "x".data⟩
    ⟨1, "0.1.2.3".data, "y".data, "y".data⟩ (Or.inl rfl)

/-- C6: for every input Name with N RDNs, the Ordered Name has exactly N
RDNs, and its i-th Ordered RDN is a permutation of (contains exactly the
AVAs of) the (N-1-i)-th input RDN: reversal plus within-RDN sorting are the
only reorderings. -/
theorem claim_C6 (android : Bool) (name : List (List AVA)) :
    (x509_ordered_name android name).length = name.length ∧
    ∀ i (h : i < (x509_ordered_name android name).length),
      List.Perm ((x509_ordered_name android name)[i])
        ((name.get ⟨name.length - 1 - i, by
          rw [length_x509_ordered_name] at h; omega⟩).map mkOAVA) := by
  refine ⟨length_x509_ordered_name android name, ?_⟩
  intro i h
  rw [getElem_x509_ordered_name]
  exact List.perm_insertionSort _ _

theorem claim_C6_witness :
    (x509_ordered_name false [[⟨[2, 5, 4, 3], .dirString (some "a".data)⟩]]).length = 1 ∧
    List.Perm
      ((x509_ordered_name false
        [[⟨[2, 5, 4, 3], .dirString (some "a".data)⟩]]).get ⟨0, by decide⟩)
      ([(⟨[2, 5, 4, 3], .dirString (some "a".data)⟩ : AVA)].map mkOAVA) := by
  have h := claim_C6 false [[⟨[2, 5, 4, 3], .dirString (some "a".data)⟩]]
  exact ⟨h.1, h.2 0 (by decide)⟩

/-- C7 as stated is false: `ẞß` has normalized_value `ßss` (doctest-pinned),
and re-applying the normalization pipeline to `ßss` yields `ssss`, because
the upper-then-lower case fold of ß is not idempotent. -/
theorem claim_C7_counterexample :
    specNormalize (mkOAVA ⟨[2, 5, 4, 3], .dirString (some "ẞß".data)⟩).nv ≠
      (mkOAVA ⟨[2, 5, 4, 3], .dirString (some "ẞß".data)⟩).nv := by
  decide

/-- C7 amended: re-normalization fixes an already-normalized value provided
the value contains no two adjacent ASCII spaces, does not begin or end with
a character of code point ≤ U+0020, and all its characters are fixed points
of upper-then-lower case folding and of NFKD (`foldStable`); the provisos
are forced by the counterexample (ß, and NFKD decompositions that produce
new spaces, escape them). -/
theorem claim_C7_amended (ava : AVA) (s? : Option (List Char))
    (hv : ava.val = .dirString s?) (v : List Char)
    (hnv : v = (mkOAVA ava).nv) (hst : foldStable v = true) :
    specNormalize v = v := by
  simp only [foldStable, Bool.and_eq_true] at hst
  obtain ⟨⟨⟨hAdj, hHead⟩, hLast⟩, hAll⟩ := hst
  simp only [List.all_eq_true, Bool.and_eq_true, decide_eq_true_eq] at hAll
  have hh : ∀ c ∈ v.head?, (fun c : Char => decide (c.toNat ≤ 32)) c = false := by
    intro c hc
    cases hhv : v.head? with
    | none => rw [hhv] at hc; cases hc
    | some d =>
      rw [hhv] at hc hHead
      cases hc
      simp only [decide_eq_true_eq] at hHead
      simpa using hHead
  have hl : ∀ c ∈ v.getLast?, (fun c : Char => decide (c.toNat ≤ 32)) c = false := by
    intro c hc
    cases hlv : v.getLast? with
    | none => rw [hlv] at hc; cases hc
    | some d =>
      rw [hlv] at hc hLast
      cases hc
      simp only [decide_eq_true_eq] at hLast
      simpa using hLast
  rw [specNormalize, specCollapse_of_noAdj hAdj, specStrip, pyStrip_eq_self hh hl,
    lower_upper_eq_self (fun c hc => (hAll c hc).1)]
  exact flatMap_eq_self_of_all (fun c hc => (hAll c hc).2)

theorem claim_C7_witness :
    foldStable "foo bar".data = true ∧
      specNormalize "foo bar".data = "foo bar".data :=
  ⟨by decide,
    claim_C7_amended ⟨[2, 5, 4, 3], .dirString (some "Foo  Bar".data)⟩
      (some "Foo  Bar".data) rfl "foo bar".data (by decide) (by decide)⟩

/-- C8 as stated is false: permuting the two AVAs `CN=" Foo"` and `CN="Foo"`
of one RDN (equal sort keys, different raw_values) changes the raw_value
order in the output of `x509_ordered_name`, because the sort is stable. -/
theorem claim_C8_counterexample :
    List.Perm
      [(⟨[2, 5, 4, 3], .dirString (some " Foo".data)⟩ : AVA),
       ⟨[2, 5, 4, 3], .dirString (some "Foo".data)⟩]
      [⟨[2, 5, 4, 3], .dirString (some "Foo".data)⟩,
       ⟨[2, 5, 4, 3], .dirString (some " Foo".data)⟩] ∧
    x509_ordered_name false
        [[⟨[2, 5, 4, 3], .dirString (some " Foo".data)⟩,
          ⟨[2, 5, 4, 3], .dirString (some "Foo".data)⟩]] ≠
      x509_ordered_name false
        [[⟨[2, 5, 4, 3], .dirString (some "Foo".data)⟩,
          ⟨[2, 5, 4, 3], .dirString (some " Foo".data)⟩]] :=
  ⟨List.Perm.swap _ _ _, by decide⟩

/-- C8 amended: permuting the AVAs within RDNs (with well-formed, non-empty
attribute OIDs) leaves the `(oid_flag, type, normalized_value)` components of
the Ordered Name unchanged; only the raw_value order among AVAs that share a
full sort key can differ (as the counterexample shows). -/
theorem claim_C8_amended (android : Bool) (name1 name2 : List (List AVA))
    (hv : ∀ rdn ∈ name1, ∀ a ∈ rdn, a.arcs ≠ [])
    (hperm : List.Forall₂ List.Perm name1 name2) :
    (x509_ordered_name android name1).map (fun l => l.map projOAVA) =
      (x509_ordered_name android name2).map (fun l => l.map projOAVA) := by
  rw [x509_ordered_name, x509_ordered_name]
  exact ordered_proj_eq_of_forall2 android
    (fun rdn hr => hv rdn (List.mem_reverse.1 hr)) (List.rel_reverse hperm)

theorem claim_C8_witness :
    (x509_ordered_name false
        [[⟨[2, 5, 4, 3], .dirString (some " Foo".data)⟩,
          ⟨[2, 5, 4, 3], .dirString (some "Foo".data)⟩]]).map
        (fun l => l.map projOAVA) =
      (x509_ordered_name false
        [[⟨[2, 5, 4, 3], .dirString (some "Foo".data)⟩,
          ⟨[2, 5, 4, 3], .dirString (some " Foo".data)⟩]]).map
        (fun l => l.map projOAVA) :=
  claim_C8_amended false _ _ (by decide)
    (List.Forall₂.cons (List.Perm.swap _ _ _) List.Forall₂.nil)

/-- C9 as stated is false: the display step of `x509_friendly_name` is
`repr(raw_value)[1:-1]`, which doubles backslashes instead of leaving them
unchanged; for `CN=#y` (raw_value `\#y`) the output is `CN=\\#y`, not the
`CN=\#y` the claim's display function produces. -/
theorem claim_C9_counterexample :
    x509_friendly_name false [[⟨[2, 5, 4, 3], .dirString (some "#y".data)⟩]] ≠
      claimedFriendlyName false [[⟨[2, 5, 4, 3], .dirString (some "#y".data)⟩]] := by
  decide

/-- C9 amended: `x509_friendly_name` joins the AVAs of each Ordered RDN as
`TYPE=display(raw_value)` with `+` (type uppercased) and the RDNs with a
comma and a space, where `display` is the body of the CPython `repr` of the
raw value without the surrounding quotes: printable characters other than the
backslash and the chosen quote character pass through unchanged, backslashes
are doubled, tab/newline/carriage-return get mnemonic escapes, and every
other non-printable character is rendered in backslash-escaped hex/unicode
code-point notation; values are not case- or Unicode-normalized. -/
theorem claim_C9_amended (android : Bool) (name : List (List AVA)) :
    x509_friendly_name android name =
      joinSep (", ".data) ((x509_ordered_name android name).map (fun avas =>
        joinSep ['+'] (avas.map (fun x => pyUpper x.t ++ '=' :: pyReprBody x.rv)))) ∧
    (∀ q c : Char, pyPrintable c = true → c ≠ '\\' → c ≠ q →
      pyCharEscape q c = [c]) ∧
    (∀ q : Char, pyCharEscape q '\\' = ['\\', '\\']) ∧
    (∀ q c : Char, pyPrintable c = false → c ≠ '\\' → c ≠ q →
      (pyCharEscape q c).head? = some '\\') := by
  refine ⟨rfl, ?_, ?_, ?_⟩
  · intro q c hp hb hq
    rw [pyCharEscape, if_neg (by rintro (h | h) <;> [exact hb h; exact hq h]),
      if_neg (fun h => by rw [h] at hp; exact absurd hp (by decide)),
      if_neg (fun h => by rw [h] at hp; exact absurd hp (by decide)),
      if_neg (fun h => by rw [h] at hp; exact absurd hp (by decide)),
      if_pos hp]
  · intro q
    rw [pyCharEscape, if_pos (Or.inl rfl)]
  · intro q c hp hb hq
    rw [pyCharEscape, if_neg (by rintro (h | h) <;> [exact hb h; exact hq h])]
    split
    · rfl
    split
    · rfl
    split
    · rfl
    rw [if_neg (by rw [hp]; exact Bool.false_ne_true)]
    split
    · rfl
    split
    · rfl
    · rfl

theorem claim_C9_witness :
    pyCharEscape squote 'a' = ['a'] :=
  (claim_C9_amended false []).2.1 squote 'a' (by decide) (by decide) (by decide)

/-- C10 (implicit): in the output of `x509_ordered_name` the raw_value of a
directory-string AVA never begins with `#` (the escaping prepends a
backslash exactly when it would), while the raw_value of a hex-fallback AVA
always begins with `#`; normalized_value does not enjoy this disambiguation:
the native string ` #` has raw_value ` #` and normalized_value `#`. -/
theorem claim_C10 (android : Bool) (name : List (List AVA)) (rdn : List AVA)
    (ava : AVA) (h1 : rdn ∈ name) (h2 : ava ∈ rdn) :
    (∃ ordn ∈ x509_ordered_name android name, mkOAVA ava ∈ ordn ∧
      (∀ s?, ava.val = .dirString s? → (mkOAVA ava).rv.head? ≠ some '#') ∧
      (∀ der, ava.val = .other der → (mkOAVA ava).rv.head? = some '#')) ∧
    (mkOAVA ⟨[2, 5, 4, 3], .dirString (some " #".data)⟩).rv = " #".data ∧
    (mkOAVA ⟨[2, 5, 4, 3], .dirString (some " #".data)⟩).nv = "#".data := by
  obtain ⟨ordn, ho, hm⟩ := mem_x509_ordered_name android h1 h2
  refine ⟨⟨ordn, ho, hm, ?_, ?_⟩, by decide, by decide⟩
  · intro s? hv
    obtain ⟨arcs, val⟩ := ava
    cases hv
    exact mkOAVA_dirString_rv_head arcs s?
  · intro der hv
    obtain ⟨arcs, val⟩ := ava
    cases hv
    rfl

theorem claim_C10_witness :
    (∃ ordn ∈ x509_ordered_name false [[⟨[2, 5, 4, 3], .dirString (some "#y".data)⟩]],
      mkOAVA ⟨[2, 5, 4, 3], .dirString (some "#y".data)⟩ ∈ ordn ∧
      (∀ s?, (⟨[2, 5, 4, 3], .dirString (some "#y".data)⟩ : AVA).val = .dirString s? →
        (mkOAVA ⟨[2, 5, 4, 3], .dirString (some "#y".data)⟩).rv.head? ≠ some '#') ∧
      (∀ der, (⟨[2, 5, 4, 3], .dirString (some "#y".data)⟩ : AVA).val = .other der →
        (mkOAVA ⟨[2, 5, 4, 3], .dirString (some "#y".data)⟩).rv.head? = some '#')) ∧
    (mkOAVA ⟨[2, 5, 4, 3], .dirString (some " #".data)⟩).rv = " #".data ∧
    (mkOAVA ⟨[2, 5, 4, 3], .dirString (some " #".data)⟩).nv = "#".data :=
  claim_C10 false _ _ _ (List.mem_singleton.2 rfl) (List.mem_singleton.2 rfl)
